import Mathlib

/-!
Verification of the row-buffered parquet write pipeline and sorted merge
of the `parquet_exp` repository, against its natural-language specification.

The embedding below translates the Rust sources:
  - `src/writer.rs`        : `RowWriter` (column encoder: `flush`,
                             `write_i64_column`, `write_utf8_column`)
  - `src/rowwritebuffer.rs`: `RowWriteBuffer` (`append_row`, `flush`,
                             `close`, `remaining_space`), `create_writer`,
                             `create_row`
  - `examples/emain.rs`    : caller of `merge_parquet` (the merge itself
                             lives in a file not present here and is
                             modelled from the specification, see below).

Rust `panic!` / `.unwrap()` on `None`/`Err`, and out-of-bounds indexing,
are modelled by `Option`: a result of `none` means the operation aborts.
Machine integers (`i64`) carry no arithmetic here beyond comparison, so
they are embedded as `Int`; `usize` quantities are embedded as `Nat`,
with the one fallible `usize` subtraction (`remaining_space`) returning
`none` exactly when the Rust subtraction would underflow.
-/

namespace ParquetExp

/-- Parquet field value (`parquet::record::Field`), restricted to the
variants this repository manipulates (`Null`, `Int`, `Long`, `Str`). -/
inductive FieldValue
  | null
  | int32 (v : Int)
  | long (v : Int)
  | str (s : String)
deriving DecidableEq

/-- A parquet `Row`: an ordered sequence of named field values
(`parquet::record::Row` holds `fields: Vec<(String, Field)>`). -/
structure Row where
  fields : List (String × FieldValue)
deriving DecidableEq

/-- From `rowwritebuffer.rs` `create_row`: builds a `Row` from a list of
(name, value) tuples.  The source constructs a layout-identical private
struct `RowImitation { fields }` and `mem::transmute`s it into `Row`;
since both structs hold exactly the `fields` vector, the transmute is the
identity on the field list. -/
def create_row (fields : List (String × FieldValue)) : Row :=
  ⟨fields⟩

/-- Positional field access on a row (the value stored at index `idx`). -/
def Row.get_field (row : Row) (idx : Nat) : Option FieldValue :=
  (row.fields.get? idx).map (fun p => p.2)

/-- `RowAccessor::get_long`: succeeds iff the field at `idx` is a `Long`. -/
def Row.get_long (row : Row) (idx : Nat) : Option Int :=
  match row.get_field idx with
  | some (.long v) => some v
  | _ => none

/-- `RowAccessor::get_string`: succeeds iff the field at `idx` is a `Str`. -/
def Row.get_string (row : Row) (idx : Nat) : Option String :=
  match row.get_field idx with
  | some (.str s) => some s
  | _ => none

/-- UTF-8 encoding of one character, byte values as `Nat`
(the bytes `ByteArray::from(&str)` stores for that character). -/
def utf8Bytes (c : Char) : List Nat :=
  let n := c.toNat
  if n < 128 then [n]
  else if n < 2048 then [192 + n / 64, 128 + n % 64]
  else if n < 65536 then [224 + n / 4096, 128 + (n / 64) % 64, 128 + n % 64]
  else [240 + n / 262144, 128 + (n / 4096) % 64, 128 + (n / 64) % 64, 128 + n % 64]

/-- The byte representation the sink stores for a text value:
`row.get_string(idx).unwrap().as_str().into()` builds a parquet
`ByteArray` holding the UTF-8 bytes of the string. -/
def strBytes (s : String) : List Nat :=
  s.data.flatMap utf8Bytes

/-- From `writer.rs` `write_i64_column`: extract the `i64` at `idx` from
every row (each `get_long(idx).unwrap()` aborts on a missing/mistyped
field), compute `column.iter().min().unwrap()` and `.max().unwrap()`
(each aborts on an empty column), and hand `(column, min, max)` to
`write_batch_with_statistics`.  The returned triple is exactly what is
written: the value column and the two statistics. -/
def write_i64_column (rows : List Row) (idx : Nat) :
    Option (List Int × Int × Int) := do
  let column ← rows.mapM (fun row => row.get_long idx)
  let the_min ← column.min?
  let the_max ← column.max?
  return (column, the_min, the_max)

/-- From `writer.rs` `write_utf8_column`: extract and convert the string
at `idx` from every row (`get_string(idx).unwrap()` aborts on a
missing/mistyped field), then write the column with statistics
`Some(&column[0])` (indexing aborts on an empty column) and
`column.last()` (an `Option`, passed through as the max statistic). -/
def write_utf8_column (rows : List Row) (idx : Nat) :
    Option (List (List Nat) × List Nat × Option (List Nat)) := do
  let column ← rows.mapM (fun row => (row.get_string idx).map strBytes)
  let first ← column.get? 0
  return (column, first, column.getLast?)

/-- Parquet converted (logical) types, the variants of
`parquet::basic::ConvertedType` relevant to the dispatch in `flush`
plus representative others hit by the catch-all panic arm. -/
inductive ConvertedType
  | none
  | utf8
  | map
  | list
  | decimal
  | date
  | timeMillis
  | timestampMillis
  | timestampMicros
  | int8
  | int16
  | int32
  | int64
  | uint64
  | json
deriving DecidableEq

/-- Parquet physical types (`parquet::basic::Type`). -/
inductive PhysicalType
  | boolean
  | int32
  | int64
  | int96
  | float
  | double
  | byteArray
  | fixedLenByteArray
deriving DecidableEq

/-- One schema field descriptor: the data `flush` consults
(`field.get_basic_info().converted_type()` and
`field.get_physical_type()`). -/
structure SchemaField where
  name : String
  converted_type : ConvertedType
  physical_type : PhysicalType
deriving DecidableEq

/-- What one column-write call hands to the sink: the typed value column
plus the min/max statistics (for UTF-8, the max is the `Option` that
`column.last()` produces). -/
inductive ColumnWrite
  | i64 (column : List Int) (mn mx : Int)
  | utf8 (column : List (List Nat)) (mn : List Nat) (mx : Option (List Nat))
deriving DecidableEq

/-- Outcome of encoding one schema field in `flush`: either a write is
issued to the column writer, or the field is skipped with no write at
all (the empty `TIMESTAMP_MILLIS` arm). -/
inductive ColumnAction
  | write (w : ColumnWrite)
  | skip
deriving DecidableEq

/-- The per-field dispatch inside `RowWriter::flush` (`writer.rs`):
`INT_64` and `UTF8` converted types call the respective column writers;
`TIMESTAMP_MILLIS` has an empty arm (no write, the column is skipped);
converted type `NONE` falls back on the physical type, handling only
`INT64`; every other combination hits a `panic!` arm (`none`). -/
def encodeField (buffer : List Row) (idx : Nat) (field : SchemaField) :
    Option ColumnAction :=
  match field.converted_type with
  | .int64 =>
      (write_i64_column buffer idx).map (fun r => .write (.i64 r.1 r.2.1 r.2.2))
  | .utf8 =>
      (write_utf8_column buffer idx).map (fun r => .write (.utf8 r.1 r.2.1 r.2.2))
  | .timestampMillis => some .skip
  | .none =>
      match field.physical_type with
      | .int64 =>
          (write_i64_column buffer idx).map (fun r => .write (.i64 r.1 r.2.1 r.2.2))
      | _ => none
  | _ => none

/-- `RowWriter::flush` (`writer.rs`): iterate over the schema fields in
index order; for each, obtain the next column writer from the row-group
writer — `ncols` models how many column writers the sink yields, so
`next_column()` is `Some` exactly for indices below `ncols`, and the
`else` branch of the source's `if let` is a `panic!` (`none`) — then
dispatch on the field's type.  The result, when no arm panics, is the
ordered list of per-column outcomes of the produced row group. -/
def flush (ncols : Nat) (schema : List SchemaField) (buffer : List Row) :
    Option (List ColumnAction) :=
  schema.enum.mapM (fun p =>
    if p.1 < ncols then encodeField buffer p.1 p.2 else none)

/-- The type combinations the dispatch in `RowWriter::flush` handles
without panicking: converted `INT_64`, converted `UTF8`, converted
`TIMESTAMP_MILLIS`, or no converted type (`NONE`) with physical
`INT64`. -/
def supportedCombo (f : SchemaField) : Prop :=
  f.converted_type = ConvertedType.int64 ∨
  f.converted_type = ConvertedType.utf8 ∨
  f.converted_type = ConvertedType.timestampMillis ∨
  (f.converted_type = ConvertedType.none ∧
    f.physical_type = PhysicalType.int64)

instance (f : SchemaField) : Decidable (supportedCombo f) := by
  unfold supportedCombo
  infer_instance

/-- State of a `RowWriteBuffer` (`rowwritebuffer.rs`): the configured
group size (`max_row_group`), the in-progress row buffer, and — in place
of the `SyncSender` end of the channel — the ordered list of batches
handed off to the background writer so far.  `send` on the channel is
modelled as appending the batch to `sent`. -/
structure RowWriteBuffer where
  max_row_group : Nat
  buffer : List Row
  sent : List (List Row)
deriving DecidableEq

/-- `RowWriteBuffer::new(path, schema, group_size)`: starts with an empty
buffer and nothing sent. -/
def RowWriteBuffer.new (group_size : Nat) : RowWriteBuffer :=
  ⟨group_size, [], []⟩

/-- `RowWriteBuffer::remaining_space`: `self.max_row_group -
self.buffer.len()` as a `usize` subtraction, which aborts (is `none`)
when the buffer holds more rows than the configured group size. -/
def RowWriteBuffer.remaining_space (w : RowWriteBuffer) : Option Nat :=
  if w.buffer.length ≤ w.max_row_group
  then some (w.max_row_group - w.buffer.length)
  else none

/-- `RowWriteBuffer::flush`: `mem::take` moves the whole buffer out
(leaving it empty) and sends it down the channel. -/
def RowWriteBuffer.flush (w : RowWriteBuffer) : RowWriteBuffer :=
  { w with buffer := [], sent := w.sent ++ [w.buffer] }

/-- `RowWriteBuffer::append_row`: push the row; when the buffer length
reaches `max_row_group`, flush (which already empties the buffer; the
source's subsequent `buffer.clear()` is a no-op). -/
def RowWriteBuffer.append_row (w : RowWriteBuffer) (row : Row) : RowWriteBuffer :=
  let pushed : RowWriteBuffer := { w with buffer := w.buffer ++ [row] }
  if pushed.buffer.length = pushed.max_row_group then pushed.flush else pushed

/-- `RowWriteBuffer::close`: flush the trailing batch iff the buffer is
non-empty, then drop the channel and join the writer thread (which do
not change the batches sent).  The returned state is the state the
pipeline ends in. -/
def RowWriteBuffer.close (w : RowWriteBuffer) : RowWriteBuffer :=
  if w.buffer.length > 0 then w.flush else w

/-- Buffer states reachable through the public operations, starting from
construction with any configured group size. -/
inductive ReachableBuffer : RowWriteBuffer → Prop
  | new (group_size : Nat) : ReachableBuffer (RowWriteBuffer.new group_size)
  | append (w : RowWriteBuffer) (row : Row) :
      ReachableBuffer w → ReachableBuffer (w.append_row row)
  | flush (w : RowWriteBuffer) : ReachableBuffer w → ReachableBuffer w.flush
  | close (w : RowWriteBuffer) : ReachableBuffer w → ReachableBuffer w.close

/-- The sink selected by `create_writer` (`rowwritebuffer.rs`): a
buffered local file, or an in-memory `Vec` buffer. -/
inductive Sink
  | file (path : List Char)
  | memBuffer
deriving DecidableEq

/-- From `rowwritebuffer.rs` `create_writer`: `path.split(':').next()`
yields the characters before the first `':'` (the whole string when no
`':'` occurs); a first guard `prefix.len() == path.len()` selects a
local file, then `"mem"` selects the in-memory buffer, and any other
prefix hits `panic!` (`none`).  Strings are embedded as `List Char`. -/
def create_writer (path : List Char) : Option Sink :=
  let pre := path.takeWhile (fun c => c ≠ ':')
  if pre.length = path.length then some (.file path)
  else if pre = ['m', 'e', 'm'] then some .memBuffer
  else none

/-- Modelled from the spec: `merge_parquet` is implemented in a source
file of this repository that is not present under `src/` (only its
caller in `examples/emain.rs` is), so the merge is embedded from spec
§4.4.  A `MergeCursor` "holds the current unconsumed row (or
exhausted)": a pair of the current row and the rest of its source;
exhausted sources are removed.  `initCursors` opens one cursor per
source holding its first row, dropping empty sources. -/
def initCursors {α : Type} (sources : List (List α)) : List (α × List α) :=
  sources.filterMap (fun s =>
    match s with
    | [] => none
    | h :: t => some (h, t))

/-- Modelled from the spec: advancing a cursor after its current row was
consumed; a source that becomes exhausted is removed from
consideration. -/
def advanceCursor {α : Type} (c : α × List α) : List (α × List α) :=
  match c.2 with
  | [] => []
  | h :: t => [(h, t)]

/-- Modelled from the spec: among the cursors `c :: cs`, select the one
whose current row is not greater than every other current row under
`lt`, ties broken by source-list order (the earlier source wins): the
head cursor is chosen unless the best row of the remaining cursors is
strictly smaller under `lt`.  Returns the selected row together with
the cursor list after consuming it (order of the other cursors
preserved). -/
def selectStep {α : Type} (lt : α → α → Bool) :
    (α × List α) → List (α × List α) → α × List (α × List α)
  | c, [] => (c.1, advanceCursor c)
  | c, c2 :: cs =>
      let rec2 := selectStep lt c2 cs
      if lt rec2.1 c.1
      then (rec2.1, c :: rec2.2)
      else (c.1, advanceCursor c ++ (c2 :: cs))

/-- Total number of rows still held by a cursor list. -/
def cursorsLen {α : Type} (cs : List (α × List α)) : Nat :=
  (cs.map (fun c => c.2.length + 1)).sum

/-- Modelled from the spec: the merge loop.  While cursors remain,
select the minimal current row (earliest source on ties), append it to
the output, advance that cursor, and repeat; terminates when every
source is exhausted (each step consumes exactly one buffered row, so the
total number of remaining rows decreases). -/
def mergeCursors {α : Type} (lt : α → α → Bool) :
    List (α × List α) → List α
  | [] => []
  | c :: cs =>
      let step := selectStep lt c cs
      step.1 :: mergeCursors lt step.2
termination_by cs => cursorsLen cs
decreasing_by
  have hadv : ∀ c : α × List α,
      cursorsLen (advanceCursor c) + 1 = c.2.length + 1 := by
    intro c
    obtain ⟨r, rest⟩ := c
    cases rest <;> simp [advanceCursor, cursorsLen]
  have hcons : ∀ (c : α × List α) (cs : List (α × List α)),
      cursorsLen (c :: cs) = c.2.length + 1 + cursorsLen cs := by
    intro c cs
    simp [cursorsLen]
  have happ : ∀ a b : List (α × List α),
      cursorsLen (a ++ b) = cursorsLen a + cursorsLen b := by
    intro a b
    simp [cursorsLen]
  have hsel : ∀ (c : α × List α) (cs : List (α × List α)),
      cursorsLen (selectStep lt c cs).2 + 1 = cursorsLen (c :: cs) := by
    intro c cs
    induction cs generalizing c with
    | nil =>
        show cursorsLen (advanceCursor c) + 1 = cursorsLen [c]
        rw [hcons]
        have h := hadv c
        simp [cursorsLen] at *
        omega
    | cons c2 cs ih =>
        simp only [selectStep]
        by_cases hlt : lt (selectStep lt c2 cs).1 c.1 = true
        · rw [if_pos hlt]
          have h := ih c2
          rw [hcons, hcons, hcons] at *
          omega
        · rw [if_neg hlt]
          have h := hadv c
          simp only [happ, hcons]
          omega
  have h := hsel c cs
  omega

/-- Modelled from the spec: `merge_parquet(sources, output, less_than)` —
open one streaming reader per source, initialize the cursors, and run
the merge loop; the returned list is the row sequence written to the
output. -/
def merge_parquet {α : Type} (lt : α → α → Bool) (sources : List (List α)) :
    List α :=
  mergeCursors lt (initCursors sources)

/-- The comparator-sorted stable interleave of two sources, written the
way spec §4.4 describes one selection step for two cursors: take from
the second source only when its row is strictly smaller under `lt`,
otherwise (including ties) from the first. -/
def mergeTwo {α : Type} (lt : α → α → Bool) : List α → List α → List α
  | [], bs => bs
  | a :: as, [] => a :: as
  | a :: as, b :: bs =>
      if lt b a then b :: mergeTwo lt (a :: as) bs
      else a :: mergeTwo lt as (b :: bs)

/-- A list is sorted under the caller-supplied comparator `lt` when no
element is strictly greater than its successor. -/
def SortedUnder {α : Type} (lt : α → α → Bool) (l : List α) : Prop :=
  List.Chain' (fun x y => ¬ lt y x = true) l

instance {α : Type} (lt : α → α → Bool) (l : List α) :
    Decidable (SortedUnder lt l) :=
  inferInstanceAs (Decidable (List.Chain' (fun x y => ¬ lt y x = true) l))

/-- Numeric comparator, as `smaller_test` in `examples/emain.rs` compares
the first (integer) column of two rows (used to exercise the merge on
concrete inputs). -/
def natLt (a b : Nat) : Bool :=
  decide (a < b)

/-- A concrete single-field row, for exercising the buffer operations. -/
def sampleRow : Row :=
  create_row [("id", FieldValue.long 1)]

/-- A row holding one `Long` field named `id` (the schema of the repo's
own test uses `REQUIRED INT64 id`). -/
def longRow (v : Int) : Row :=
  create_row [("id", FieldValue.long v)]

/-- A row holding one `Str` field named `account`. -/
def strRow (s : String) : Row :=
  create_row [("account", FieldValue.str s)]

/-- A schema field with converted type `TIMESTAMP_MILLIS`. -/
def tsField : SchemaField :=
  ⟨"start_time", ConvertedType.timestampMillis, PhysicalType.int64⟩

/-- A schema field with converted type `DATE`, which no dispatch arm of
`flush` handles. -/
def dateField : SchemaField :=
  ⟨"day", ConvertedType.date, PhysicalType.int32⟩

/-- A schema field with converted type `INT_64`. -/
def idField : SchemaField :=
  ⟨"id", ConvertedType.int64, PhysicalType.int64⟩

/-! Helper lemmas (shared): behaviour of `Option`-monadic `mapM` and the
characterization of `List.min?` / `List.max?` used by the statistics
claims. -/

theorem mapM_eq_some_map {α β : Type} (f : α → Option β) (d : β) (l : List α)
    (h : ∀ a ∈ l, (f a).isSome) :
    l.mapM f = some (l.map (fun a => (f a).getD d)) := by
  induction l with
  | nil => rfl
  | cons x xs ih =>
      rw [List.mapM_cons]
      obtain ⟨y, hy⟩ := Option.isSome_iff_exists.mp (h x (List.mem_cons_self x xs))
      rw [hy, ih (fun a ha => h a (List.mem_cons_of_mem x ha))]
      simp [hy]

theorem mapM_none_of_mem {α β : Type} (f : α → Option β) (l : List α) (a : α)
    (ha : a ∈ l) (hf : f a = none) : l.mapM f = none := by
  induction l with
  | nil => cases ha
  | cons x xs ih =>
      rcases List.mem_cons.mp ha with h | h
      · rw [List.mapM_cons, ← h, hf]
        rfl
      · cases hfx : f x with
        | none => rw [List.mapM_cons, hfx]; rfl
        | some y => rw [List.mapM_cons, hfx, ih h]; rfl

theorem mapM_isSome_of_mem {α β : Type} (f : α → Option β) (l : List α)
    (res : List β) (h : l.mapM f = some res) (a : α) (ha : a ∈ l) :
    (f a).isSome := by
  by_contra hns
  have hfa : f a = none := Option.not_isSome_iff_eq_none.mp hns
  rw [mapM_none_of_mem f l a ha hfa] at h
  cases h

theorem takeWhile_length_eq_iff {α : Type} (p : α → Bool) (l : List α) :
    (l.takeWhile p).length = l.length ↔ ∀ a ∈ l, p a = true := by
  induction l with
  | nil => simp
  | cons x xs ih =>
      cases hx : p x with
      | true => simp [List.takeWhile_cons, hx, ih]
      | false =>
          have ht : (x :: xs).takeWhile p = [] := by
            simp [List.takeWhile_cons, hx]
          rw [ht]
          simp only [List.length_nil, List.length_cons]
          constructor
          · intro h
            omega
          · intro h
            exact absurd (h x (List.mem_cons_self x xs)) (by simp [hx])

theorem mapM_get_some {α β : Type} (f : α → Option β) (l : List α)
    (res : List β) (h : l.mapM f = some res) (i : Nat) :
    res.get? i = (l.get? i).bind f := by
  induction l generalizing res i with
  | nil =>
      simp only [List.mapM_nil, pure, Option.some_inj] at h
      subst h
      simp
  | cons x xs ih =>
      rw [List.mapM_cons] at h
      cases hfx : f x with
      | none => rw [hfx] at h; simp at h
      | some y =>
          rw [hfx] at h
          cases hxs : xs.mapM f with
          | none => rw [hxs] at h; simp at h
          | some ys =>
              rw [hxs] at h
              have h2 : some (y :: ys) = some res := h
              obtain rfl := Option.some.inj h2
              cases i with
              | zero => simp [hfx]
              | succ n => simpa using ih ys hxs n

theorem min?_spec {α : Type} [LinearOrder α] (l : List α) (hne : l ≠ []) :
    ∃ m, l.min? = some m ∧ m ∈ l ∧ ∀ v ∈ l, m ≤ v := by
  match l with
  | [] => exact absurd rfl hne
  | x :: xs =>
    clear hne
    induction xs generalizing x with
    | nil => exact ⟨x, rfl, List.mem_singleton_self x, by simp⟩
    | cons y ys ih =>
      obtain ⟨m, hm, hmem, hle⟩ := ih (min x y)
      refine ⟨m, ?_, ?_, ?_⟩
      · rw [List.min?_cons'] at hm ⊢
        simpa using hm
      · rcases List.mem_cons.mp hmem with h | h
        · rcases min_choice x y with hc | hc <;> simp [h ▸ hc]
        · simp [h]
      · intro v hv
        rcases List.mem_cons.mp hv with h | h
        · exact h ▸ le_trans (hle _ (List.mem_cons_self _ _)) (min_le_left x y)
        · rcases List.mem_cons.mp h with h2 | h2
          · exact h2 ▸ le_trans (hle _ (List.mem_cons_self _ _)) (min_le_right x y)
          · exact hle v (List.mem_cons_of_mem _ h2)

theorem max?_spec {α : Type} [LinearOrder α] (l : List α) (hne : l ≠ []) :
    ∃ m, l.max? = some m ∧ m ∈ l ∧ ∀ v ∈ l, v ≤ m := by
  match l with
  | [] => exact absurd rfl hne
  | x :: xs =>
    clear hne
    induction xs generalizing x with
    | nil => exact ⟨x, rfl, List.mem_singleton_self x, by simp⟩
    | cons y ys ih =>
      obtain ⟨m, hm, hmem, hle⟩ := ih (max x y)
      refine ⟨m, ?_, ?_, ?_⟩
      · rw [List.max?_cons'] at hm ⊢
        simpa using hm
      · rcases List.mem_cons.mp hmem with h | h
        · rcases max_choice x y with hc | hc <;> simp [h ▸ hc]
        · simp [h]
      · intro v hv
        rcases List.mem_cons.mp hv with h | h
        · exact h ▸ le_trans (le_max_left x y) (hle _ (List.mem_cons_self _ _))
        · rcases List.mem_cons.mp h with h2 | h2
          · exact h2 ▸ le_trans (le_max_right x y) (hle _ (List.mem_cons_self _ _))
          · exact hle v (List.mem_cons_of_mem _ h2)

/-- C1: for every non-empty batch of rows with an integer (64-bit) column
at `idx`, `write_i64_column` writes the extracted column together with
statistics equal to the true minimum and true maximum of the column's
values over the batch. -/
theorem write_i64_column_true_min_max (rows : List Row) (idx : Nat)
    (hne : rows ≠ []) (hall : ∀ r ∈ rows, (r.get_long idx).isSome) :
    ∃ column mn mx,
      write_i64_column rows idx = some (column, mn, mx) ∧
      column = rows.map (fun r => (r.get_long idx).getD 0) ∧
      mn ∈ column ∧ mx ∈ column ∧
      ∀ v ∈ column, mn ≤ v ∧ v ≤ mx := by
  have hmap := mapM_eq_some_map (fun r => r.get_long idx) 0 rows hall
  have hcne : rows.map (fun r => (r.get_long idx).getD 0) ≠ [] := by
    simpa using hne
  obtain ⟨mn, hmn, hmnmem, hmnle⟩ :=
    min?_spec (rows.map (fun r => (r.get_long idx).getD 0)) hcne
  obtain ⟨mx, hmx, hmxmem, hmxle⟩ :=
    max?_spec (rows.map (fun r => (r.get_long idx).getD 0)) hcne
  refine ⟨rows.map (fun r => (r.get_long idx).getD 0), mn, mx, ?_, rfl,
    hmnmem, hmxmem, fun v hv => ⟨hmnle v hv, hmxle v hv⟩⟩
  have hmap2 : List.mapM.loop (fun row => row.get_long idx) rows [] =
      some (rows.map (fun r => (r.get_long idx).getD 0)) := hmap
  simp [write_i64_column, hmap2, hmn, hmx]

/-- Witness for C1: the spec's example batch with integer column values
[10, 2, 7] (written min 2, written max 10). -/
theorem write_i64_column_true_min_max_witness :
    ∃ column mn mx,
      write_i64_column [longRow 10, longRow 2, longRow 7] 0 =
        some (column, mn, mx) ∧
      column = [longRow 10, longRow 2, longRow 7].map
        (fun r => (r.get_long 0).getD 0) ∧
      mn ∈ column ∧ mx ∈ column ∧
      ∀ v ∈ column, mn ≤ v ∧ v ≤ mx :=
  write_i64_column_true_min_max [longRow 10, longRow 2, longRow 7] 0
    (by decide) (by decide)

/-- C2: for every non-empty batch of rows with a UTF8 text column at
`idx`, `write_utf8_column` converts each row's text to its byte
representation and writes the batch with statistics taken positionally —
the first row's value as min and the last row's value as max — and these
are in general not the true lexicographic minimum and maximum (second
conjunct: a batch where a lexicographically smaller element than the
written min, and larger than the written max, occurs in the column). -/
theorem write_utf8_column_positional_stats (rows : List Row) (idx : Nat)
    (hne : rows ≠ []) (hall : ∀ r ∈ rows, (r.get_string idx).isSome) :
    (∃ column,
        write_utf8_column rows idx =
          some (column, column.headD [], column.getLast?) ∧
        column = rows.map (fun r => strBytes ((r.get_string idx).getD "")) ∧
        column ≠ []) ∧
    (∃ rows2 column2 mn2 mx2,
        write_utf8_column rows2 0 = some (column2, mn2, mx2) ∧
        (∃ b ∈ column2, List.Lex (· < ·) b mn2) ∧
        ∃ m, mx2 = some m ∧ ∃ b2 ∈ column2, List.Lex (· < ·) m b2) := by
  constructor
  · have hall2 : ∀ r ∈ rows, ((r.get_string idx).map strBytes).isSome := by
      intro r hr
      obtain ⟨s, hs⟩ := Option.isSome_iff_exists.mp (hall r hr)
      simp [hs]
    have hmap :=
      mapM_eq_some_map (fun r => (r.get_string idx).map strBytes) [] rows hall2
    have hcoleq :
        rows.map (fun r => ((r.get_string idx).map strBytes).getD []) =
        rows.map (fun r => strBytes ((r.get_string idx).getD "")) := by
      apply List.map_congr_left
      intro r hr
      obtain ⟨s, hs⟩ := Option.isSome_iff_exists.mp (hall r hr)
      simp [hs]
    have hcne : rows.map (fun r => strBytes ((r.get_string idx).getD "")) ≠ [] := by
      simpa using hne
    obtain ⟨c0, rest, hc⟩ := List.exists_cons_of_ne_nil hcne
    have hmap2 : List.mapM.loop (fun row => (row.get_string idx).map strBytes) rows [] =
        some (rows.map (fun r => strBytes ((r.get_string idx).getD ""))) := by
      rw [← hcoleq]
      exact hmap
    refine ⟨rows.map (fun r => strBytes ((r.get_string idx).getD "")), ?_, rfl, hcne⟩
    simp [write_utf8_column, hmap2, hc]
  · exact ⟨[strRow "b", strRow "a"], [[98], [97]], [98], some [97], by decide,
      ⟨[97], by decide, by decide⟩, [97], rfl, [98], by decide, by decide⟩

/-- Witness for C2: a two-row text batch ["b", "a"]: written min is the
first row's bytes [98] and written max the last row's bytes [97], while
[97] is lexicographically below the written min. -/
theorem write_utf8_column_positional_stats_witness :
    (∃ column,
        write_utf8_column [strRow "b", strRow "a"] 0 =
          some (column, column.headD [], column.getLast?) ∧
        column = [strRow "b", strRow "a"].map
          (fun r => strBytes ((r.get_string 0).getD "")) ∧
        column ≠ []) ∧
    (∃ rows2 column2 mn2 mx2,
        write_utf8_column rows2 0 = some (column2, mn2, mx2) ∧
        (∃ b ∈ column2, List.Lex (· < ·) b mn2) ∧
        ∃ m, mx2 = some m ∧ ∃ b2 ∈ column2, List.Lex (· < ·) m b2) :=
  write_utf8_column_positional_stats [strRow "b", strRow "a"] 0
    (by decide) (by decide)

/-- C3: `append_row` triggers an automatic flush exactly when the buffer
size reaches `max_row_group` (never before), leaving the buffer empty
afterwards; the batch handed off is the full buffer.  `close` flushes
the trailing partial batch iff the buffer is non-empty, and always ends
with an empty buffer. -/
theorem append_close_flush_discipline (w : RowWriteBuffer) (row : Row) :
    ((w.append_row row).sent =
      if w.buffer.length + 1 = w.max_row_group
      then w.sent ++ [w.buffer ++ [row]] else w.sent) ∧
    ((w.append_row row).buffer =
      if w.buffer.length + 1 = w.max_row_group
      then [] else w.buffer ++ [row]) ∧
    (w.close.sent =
      if w.buffer.length = 0 then w.sent else w.sent ++ [w.buffer]) ∧
    w.close.buffer = [] := by
  refine ⟨?_, ?_, ?_, ?_⟩
  · by_cases h : w.buffer.length + 1 = w.max_row_group <;>
      simp [RowWriteBuffer.append_row, RowWriteBuffer.flush, h]
  · by_cases h : w.buffer.length + 1 = w.max_row_group <;>
      simp [RowWriteBuffer.append_row, RowWriteBuffer.flush, h]
  · by_cases h : w.buffer.length = 0
    · simp [RowWriteBuffer.close, RowWriteBuffer.flush, h]
    · simp [RowWriteBuffer.close, RowWriteBuffer.flush, h,
        Nat.pos_of_ne_zero h]
  · by_cases h : w.buffer.length = 0
    · simp [RowWriteBuffer.close, RowWriteBuffer.flush, h,
        List.length_eq_zero.mp h]
    · simp [RowWriteBuffer.close, RowWriteBuffer.flush,
        Nat.pos_of_ne_zero h]

/-- Buffered rows never exceed the configured group size on any
reachable state, provided the group size is positive (helper for C4:
`append_row` flushes as soon as the length reaches `max_row_group`). -/
theorem reachable_buffer_length_lt (w : RowWriteBuffer)
    (hw : ReachableBuffer w) :
    1 ≤ w.max_row_group → w.buffer.length < w.max_row_group := by
  induction hw with
  | new gs =>
      intro h
      simpa [RowWriteBuffer.new] using h
  | append w row hw ih =>
      intro h
      have hmax : (w.append_row row).max_row_group = w.max_row_group := by
        by_cases hc : w.buffer.length + 1 = w.max_row_group <;>
          simp [RowWriteBuffer.append_row, RowWriteBuffer.flush, hc]
      rw [hmax] at h ⊢
      by_cases hc : w.buffer.length + 1 = w.max_row_group
      · simp [RowWriteBuffer.append_row, RowWriteBuffer.flush, hc]
        omega
      · have := ih h
        simp [RowWriteBuffer.append_row, RowWriteBuffer.flush, hc]
        omega
  | flush w hw ih =>
      intro h
      simp only [RowWriteBuffer.flush] at h ⊢
      simpa using h
  | close w hw ih =>
      intro h
      by_cases hc : w.buffer.length = 0
      · have hcb := List.length_eq_zero.mp hc
        simp only [RowWriteBuffer.close, RowWriteBuffer.flush] at h ⊢
        by_cases hgt : w.buffer.length > 0 <;> simp_all
      · simp only [RowWriteBuffer.close, RowWriteBuffer.flush] at h ⊢
        have hgt : w.buffer.length > 0 := by omega
        simp_all
        omega

/-- C4 (amended): on every reachable buffer state whose configured group
size is at least 1, `remaining_space` succeeds and returns
`group_size - current_size`, and `remaining_space + current_size =
group_size`. -/
theorem remaining_space_invariant (w : RowWriteBuffer)
    (hw : ReachableBuffer w) (hgs : 1 ≤ w.max_row_group) :
    w.remaining_space = some (w.max_row_group - w.buffer.length) ∧
    (w.max_row_group - w.buffer.length) + w.buffer.length =
      w.max_row_group := by
  have hlt := reachable_buffer_length_lt w hw hgs
  constructor
  · simp [RowWriteBuffer.remaining_space, le_of_lt hlt]
  · omega

/-- Counterexample for C4 as stated: with configured group size 0 the
state after one `append_row` is reachable between flushes (no flush has
fired: the length-equality trigger never matches group size 0), the
buffer holds one row — more than `group_size` — and `remaining_space`
aborts on `usize` underflow instead of satisfying
`remaining_space() + current_size == group_size`. -/
theorem remaining_space_zero_group_size_ce :
    ReachableBuffer ((RowWriteBuffer.new 0).append_row sampleRow) ∧
    ((RowWriteBuffer.new 0).append_row sampleRow).remaining_space = none ∧
    ∀ r : Nat,
      ¬ (((RowWriteBuffer.new 0).append_row sampleRow).remaining_space = some r ∧
        r + ((RowWriteBuffer.new 0).append_row sampleRow).buffer.length =
          ((RowWriteBuffer.new 0).append_row sampleRow).max_row_group) := by
  refine ⟨ReachableBuffer.append _ _ (ReachableBuffer.new 0), by decide, ?_⟩
  intro r hr
  obtain ⟨h1, _⟩ := hr
  have h0 : ((RowWriteBuffer.new 0).append_row sampleRow).remaining_space = none := by
    decide
  rw [h0] at h1
  cases h1

/-- Witness for C4 (amended): the reachable state after one append into
a buffer with group size 2. -/
theorem remaining_space_invariant_witness :
    ((RowWriteBuffer.new 2).append_row sampleRow).remaining_space =
      some (((RowWriteBuffer.new 2).append_row sampleRow).max_row_group -
        ((RowWriteBuffer.new 2).append_row sampleRow).buffer.length) ∧
    (((RowWriteBuffer.new 2).append_row sampleRow).max_row_group -
        ((RowWriteBuffer.new 2).append_row sampleRow).buffer.length) +
      ((RowWriteBuffer.new 2).append_row sampleRow).buffer.length =
      ((RowWriteBuffer.new 2).append_row sampleRow).max_row_group :=
  remaining_space_invariant _
    (ReachableBuffer.append _ _ (ReachableBuffer.new 2)) (by decide)

/-- C10: encoding an empty batch aborts rather than writing an empty row
group: the integer path unwraps `None` from `min`/`max` on the empty
column, and the UTF-8 path indexes `column[0]` of an empty vector. -/
theorem empty_batch_aborts (idx : Nat) :
    write_i64_column [] idx = none ∧ write_utf8_column [] idx = none := by
  exact ⟨rfl, rfl⟩

/-- C6: when `flush` succeeds on a batch whose schema declares a
timestamp-milliseconds field at position `i`, no write is performed for
that column — the produced row group's outcome at `i` is `skip`, so the
row group is incomplete for that field. -/
theorem timestamp_column_skipped (ncols : Nat) (schema : List SchemaField)
    (buffer : List Row) (acts : List ColumnAction) (i : Nat) (f : SchemaField)
    (hflush : flush ncols schema buffer = some acts)
    (hf : schema.get? i = some f)
    (hts : f.converted_type = ConvertedType.timestampMillis) :
    acts.get? i = some ColumnAction.skip := by
  have hflush2 : schema.enum.mapM
      (fun p => if p.1 < ncols then encodeField buffer p.1 p.2 else none) =
      some acts := hflush
  have hget := mapM_get_some _ _ _ hflush2 i
  have henum : schema.enum.get? i = some (i, f) := by
    rw [List.enum_get?, hf]
    rfl
  have hmem : (i, f) ∈ schema.enum := by
    rw [List.mem_enum_iff_get?]
    exact hf
  have hsome := mapM_isSome_of_mem _ _ _ hflush2 (i, f) hmem
  by_cases hin : i < ncols
  · rw [henum] at hget
    rw [hget]
    show (if i < ncols then encodeField buffer i f else none) =
      some ColumnAction.skip
    simp [hin, encodeField, hts]
  · simp [hin] at hsome

/-- Witness for C6: a one-field timestamp-milliseconds schema; the flush
outcome for the column is `skip`. -/
theorem timestamp_column_skipped_witness :
    ([ColumnAction.skip] : List ColumnAction).get? 0 =
      some ColumnAction.skip :=
  timestamp_column_skipped 1 [tsField] [] [ColumnAction.skip] 0 tsField
    (by decide) (by decide) (by decide)

/-- C7: a schema field whose type combination is outside the supported
set makes the whole encode abort (`flush` panics, `none`), and likewise
`flush` aborts when no column writer exists for a field index (`ncols ≤
i` for a field index `i` of the schema). -/
theorem unsupported_combo_fatal (schema : List SchemaField)
    (buffer : List Row) (ncols i : Nat) (f : SchemaField) :
    (schema.get? i = some f → ¬ supportedCombo f →
      flush ncols schema buffer = none) ∧
    (i < schema.length → ncols ≤ i →
      flush ncols schema buffer = none) := by
  constructor
  · intro hf hns
    have henc : encodeField buffer i f = none := by
      obtain ⟨fname, ct, pt⟩ := f
      simp only [supportedCombo, not_or] at hns
      obtain ⟨h1, h2, h3, h4⟩ := hns
      cases ct <;> try (cases pt) <;> simp_all [encodeField]
    have hmem : (i, f) ∈ schema.enum := by
      rw [List.mem_enum_iff_get?]
      exact hf
    show schema.enum.mapM
      (fun p => if p.1 < ncols then encodeField buffer p.1 p.2 else none) =
      none
    apply mapM_none_of_mem _ _ (i, f) hmem
    by_cases hin : i < ncols <;> simp [hin, henc]
  · intro hlen hnc
    have hf : schema.get? i = some (schema.get ⟨i, hlen⟩) :=
      List.get?_eq_get hlen
    have hmem : (i, schema.get ⟨i, hlen⟩) ∈ schema.enum := by
      rw [List.mem_enum_iff_get?]
      exact hf
    show schema.enum.mapM
      (fun p => if p.1 < ncols then encodeField buffer p.1 p.2 else none) =
      none
    apply mapM_none_of_mem _ _ _ hmem
    simp [Nat.not_lt.mpr hnc]

/-- Witness for C7: an unsupported `DATE` column makes `flush` abort,
and a missing column writer (no writer for index 0) makes `flush`
abort even on a supported `INT_64` column. -/
theorem unsupported_combo_fatal_witness :
    flush 1 [dateField] [] = none ∧ flush 0 [idField] [] = none :=
  ⟨(unsupported_combo_fatal [dateField] [] 1 0 dateField).1
      (by decide) (by decide),
   (unsupported_combo_fatal [idField] [] 0 0 idField).2
      (by decide) (by decide)⟩

/-- C8: sink selection by string prefix — when the location contains no
':' (equivalently, the substring before the first ':' occupies the
whole string) the sink is a local file; otherwise, prefix "mem" selects
the in-memory buffer and any other prefix is fatal. -/
theorem create_writer_prefix_dispatch (path : List Char) :
    ((':' ∉ path) ↔
      (path.takeWhile (fun c => c ≠ ':')).length = path.length) ∧
    (':' ∉ path → create_writer path = some (Sink.file path)) ∧
    (':' ∈ path → path.takeWhile (fun c => c ≠ ':') = ['m', 'e', 'm'] →
      create_writer path = some Sink.memBuffer) ∧
    (':' ∈ path → path.takeWhile (fun c => c ≠ ':') ≠ ['m', 'e', 'm'] →
      create_writer path = none) := by
  have hiff : (':' ∉ path) ↔
      (path.takeWhile (fun c => c ≠ ':')).length = path.length := by
    rw [takeWhile_length_eq_iff]
    simp only [decide_eq_true_eq]
    constructor
    · intro h a ha heq
      exact h (heq ▸ ha)
    · intro h hmem
      exact (h ':' hmem) rfl
  have hcw : create_writer path =
      if (path.takeWhile (fun c => c ≠ ':')).length = path.length
      then some (Sink.file path)
      else if path.takeWhile (fun c => c ≠ ':') = ['m', 'e', 'm']
      then some Sink.memBuffer
      else none := rfl
  refine ⟨hiff, ?_, ?_, ?_⟩
  · intro h
    rw [hcw, if_pos (hiff.mp h)]
  · intro hmem hpre
    have hne : ¬ (path.takeWhile (fun c => c ≠ ':')).length = path.length :=
      fun hl => (hiff.mpr hl) hmem
    rw [hcw, if_neg hne, if_pos hpre]
  · intro hmem hpre
    have hne : ¬ (path.takeWhile (fun c => c ≠ ':')).length = path.length :=
      fun hl => (hiff.mpr hl) hmem
    rw [hcw, if_neg hne, if_neg hpre]

/-- Witness for C8: a plain filename selects the local file sink, a
"mem:" prefix the in-memory sink, and an "s3:" prefix aborts. -/
theorem create_writer_prefix_dispatch_witness :
    create_writer ['a'] = some (Sink.file ['a']) ∧
    create_writer ['m', 'e', 'm', ':', 'x'] = some Sink.memBuffer ∧
    create_writer ['s', '3', ':', 'x'] = none :=
  ⟨(create_writer_prefix_dispatch ['a']).2.1 (by decide),
   (create_writer_prefix_dispatch ['m', 'e', 'm', ':', 'x']).2.2.1
      (by decide) (by decide),
   (create_writer_prefix_dispatch ['s', '3', ':', 'x']).2.2.2
      (by decide) (by decide)⟩

/-- C9: constructing a row from an ordered list of (name, value) pairs
with `create_row` and reading each field back by position yields exactly
the original values, in the original order. -/
theorem create_row_roundtrip (fields : List (String × FieldValue)) :
    (create_row fields).fields = fields ∧
    ∀ idx : Nat, (create_row fields).get_field idx =
      (fields.get? idx).map (fun p => p.2) :=
  ⟨rfl, fun _ => rfl⟩

/-! Lemmas for the merge (C5). -/

theorem advanceCursor_eq_init {α : Type} (x : α) (s : List α) :
    advanceCursor (x, s) = initCursors [s] := by
  cases s <;> simp [advanceCursor, initCursors]

theorem mergeCursors_nil {α : Type} (lt : α → α → Bool) :
    mergeCursors lt [] = [] := by
  rw [mergeCursors]

theorem mergeCursors_cons {α : Type} (lt : α → α → Bool)
    (c : α × List α) (cs : List (α × List α)) :
    mergeCursors lt (c :: cs) =
      (selectStep lt c cs).1 :: mergeCursors lt (selectStep lt c cs).2 := by
  rw [mergeCursors]

theorem mergeCursors_single {α : Type} (lt : α → α → Bool)
    (x : α) (t : List α) :
    mergeCursors lt [(x, t)] = x :: t := by
  induction t generalizing x with
  | nil =>
      rw [mergeCursors_cons]
      simp [selectStep, advanceCursor, mergeCursors_nil]
  | cons y t2 ih =>
      rw [mergeCursors_cons]
      show x :: mergeCursors lt [(y, t2)] = x :: y :: t2
      rw [ih y]

theorem mergeCursors_two_eq_mergeTwo {α : Type} (lt : α → α → Bool)
    (A B : List α) :
    mergeCursors lt (initCursors [A, B]) = mergeTwo lt A B := by
  induction A generalizing B with
  | nil =>
      cases B with
      | nil =>
          rw [show initCursors ([] :: [] :: List.nil (α := List α)) =
              ([] : List (α × List α)) by simp [initCursors]]
          rw [mergeCursors_nil]
          simp [mergeTwo]
      | cons b B2 =>
          rw [show initCursors ([] :: (b :: B2) :: List.nil (α := List α)) =
              [(b, B2)] by simp [initCursors]]
          rw [mergeCursors_single]
          simp [mergeTwo]
  | cons a A2 ihA =>
      induction B with
      | nil =>
          rw [show initCursors ((a :: A2) :: [] :: List.nil (α := List α)) =
              [(a, A2)] by simp [initCursors]]
          rw [mergeCursors_single]
          simp [mergeTwo]
      | cons b B2 ihB =>
          rw [show initCursors ((a :: A2) :: (b :: B2) :: List.nil (α := List α)) =
              (a, A2) :: [(b, B2)] by simp [initCursors]]
          rw [mergeCursors_cons]
          by_cases hlt : lt b a = true
          · have hsel : selectStep lt (a, A2) [(b, B2)] =
                (b, (a, A2) :: advanceCursor (b, B2)) := by
              simp [selectStep, hlt]
            rw [hsel, advanceCursor_eq_init]
            rw [show (a, A2) :: initCursors [B2] =
                initCursors ((a :: A2) :: B2 :: List.nil (α := List α)) by
              simp [initCursors]]
            rw [ihB]
            rw [mergeTwo, if_pos hlt]
          · have hsel : selectStep lt (a, A2) [(b, B2)] =
                (a, advanceCursor (a, A2) ++ [(b, B2)]) := by
              simp [selectStep, hlt]
            rw [hsel, advanceCursor_eq_init]
            rw [show initCursors [A2] ++ [(b, B2)] =
                initCursors (A2 :: (b :: B2) :: List.nil (α := List α)) by
              cases A2 <;> simp [initCursors]]
            show a :: mergeCursors lt (initCursors [A2, b :: B2]) =
              mergeTwo lt (a :: A2) (b :: B2)
            rw [ihA (b :: B2)]
            conv_rhs => rw [mergeTwo]
            rw [if_neg hlt]

theorem mergeTwo_head? {α : Type} (lt : α → α → Bool) (A B : List α) :
    (mergeTwo lt A B).head? = A.head? ∨ (mergeTwo lt A B).head? = B.head? := by
  cases A with
  | nil =>
      right
      simp [mergeTwo]
  | cons a as =>
      cases B with
      | nil =>
          left
          simp [mergeTwo]
      | cons b bs =>
          by_cases hlt : lt b a = true
          · right
            rw [mergeTwo, if_pos hlt]
            rfl
          · left
            rw [mergeTwo, if_neg hlt]
            rfl

theorem mergeTwo_sorted {α : Type} (lt : α → α → Bool)
    (hasym : ∀ x y, lt x y = true → lt y x = false) (A B : List α) :
    SortedUnder lt A → SortedUnder lt B →
    SortedUnder lt (mergeTwo lt A B) := by
  induction A generalizing B with
  | nil =>
      intro _ hB
      simpa [mergeTwo] using hB
  | cons a as ihA =>
      induction B with
      | nil =>
          intro hA _
          simpa [mergeTwo] using hA
      | cons b bs ihB =>
          intro hA hB
          by_cases hlt : lt b a = true
          · rw [mergeTwo, if_pos hlt]
            rw [SortedUnder, List.chain'_cons']
            constructor
            · intro y hy
              rcases mergeTwo_head? lt (a :: as) bs with hh | hh
              · rw [hh] at hy
                have hya : a = y := by simpa using hy
                subst hya
                simp [hasym b a hlt]
              · rw [hh] at hy
                exact (List.chain'_cons'.mp hB).1 y hy
            · exact ihB hA (List.chain'_cons'.mp hB).2
          · rw [mergeTwo, if_neg hlt]
            rw [SortedUnder, List.chain'_cons']
            constructor
            · intro y hy
              rcases mergeTwo_head? lt as (b :: bs) with hh | hh
              · rw [hh] at hy
                exact (List.chain'_cons'.mp hA).1 y hy
              · rw [hh] at hy
                have hyb : b = y := by simpa using hy
                subst hyb
                simpa using hlt
            · exact ihA (b :: bs) (List.chain'_cons'.mp hA).2 hB

theorem mergeTwo_perm {α : Type} (lt : α → α → Bool) (A B : List α) :
    (mergeTwo lt A B).Perm (A ++ B) := by
  induction A generalizing B with
  | nil => simp [mergeTwo]
  | cons a as ihA =>
      induction B with
      | nil => simp [mergeTwo]
      | cons b bs ihB =>
          by_cases hlt : lt b a = true
          · rw [mergeTwo, if_pos hlt]
            exact (ihB.cons b).trans List.perm_middle.symm
          · rw [mergeTwo, if_neg hlt]
            exact (ihA (b :: bs)).cons a

/-- C5: for two sources A and B each individually sorted under a
strict comparator `lt`, `merge_parquet` (modelled from spec §4.4)
produces exactly the comparator-sorted stable interleave of A and B:
it equals the reference stable two-way merge (ties resolved in favour
of the earlier source), its output is sorted under `lt`, and it is an
interleave (a permutation of A ++ B); it terminates with all sources
exhausted, having emitted every row. -/
theorem merge_parquet_two_sorted {α : Type} (lt : α → α → Bool)
    (hasym : ∀ x y, lt x y = true → lt y x = false)
    (A B : List α) (hA : SortedUnder lt A) (hB : SortedUnder lt B) :
    merge_parquet lt [A, B] = mergeTwo lt A B ∧
    SortedUnder lt (merge_parquet lt [A, B]) ∧
    (merge_parquet lt [A, B]).Perm (A ++ B) := by
  have heq : merge_parquet lt [A, B] = mergeTwo lt A B :=
    mergeCursors_two_eq_mergeTwo lt A B
  refine ⟨heq, ?_, ?_⟩
  · rw [heq]
    exact mergeTwo_sorted lt hasym A B hA hB
  · rw [heq]
    exact mergeTwo_perm lt A B

/-- Witness for C5: the spec's example A = [1,3,5], B = [2,4,6] under
the numeric comparator; the merge is [1,2,3,4,5,6]. -/
theorem merge_parquet_two_sorted_witness :
    merge_parquet natLt [[1, 3, 5], [2, 4, 6]] =
      mergeTwo natLt [1, 3, 5] [2, 4, 6] ∧
    SortedUnder natLt (merge_parquet natLt [[1, 3, 5], [2, 4, 6]]) ∧
    (merge_parquet natLt [[1, 3, 5], [2, 4, 6]]).Perm
      ([1, 3, 5] ++ [2, 4, 6]) :=
  merge_parquet_two_sorted natLt
    (fun x y h => by
      simp only [natLt, decide_eq_true_eq] at h
      simp only [natLt, decide_eq_false_iff_not]
      omega)
    [1, 3, 5] [2, 4, 6]
    (by simp [SortedUnder, List.chain'_cons, natLt])
    (by simp [SortedUnder, List.chain'_cons, natLt])

end ParquetExp
